import Mathlib

/-!
# message_queue: priority message queue with watermark events

A shallow embedding of `message_queue.h` / `message_queue.cpp`.

* `Message T` is the envelope (payload plus `unsigned short` priority).
* `std::priority_queue<Msg, vector<Msg>, less<Msg>>` is embedded as the
  underlying `vector` (a `List`) together with the heap algorithms
  `std::push_heap` / `std::pop_heap` that the adaptor calls.
* `MessageQueue T` carries the fields of the C++ class; every member function
  is a pure function returning the new state and the effects of the call
  (return code, observer signals, condition-variable notifications).
* Each member function of `MessageQueue` runs under `_mutex`, so a call is one
  atomic step; `get` is split at `_cv.wait`, the only point where the lock is
  released.
-/

set_option autoImplicit false

namespace MQ

/-! ## Message envelope (message_queue.h, lines 24-60) -/

/-- The envelope `Message<T>`: payload `data` and `unsigned short priority`. -/
structure Message (T : Type) where
  data : T
  priority : Nat
deriving DecidableEq, Repr

/-- Conversion of an `int` argument to `unsigned short` (value modulo 2^16). -/
def toUShort (p : Int) : Nat := (p % 65536).toNat

/-- Conversion `(unsigned)x` of an `int` to `unsigned` (value modulo 2^32). -/
def toUnsigned (x : Int) : Nat := (x % 4294967296).toNat

/-- The envelope built by `Msg msg(message, priority)` in `put`: the `int`
priority is converted to the constructor's `unsigned short` parameter. -/
def Message.ofInt {T : Type} (data : T) (priority : Int) : Message T :=
  { data := data, priority := toUShort priority }

/-- The payload accessor `Message::get_data`. -/
def Message.get_data {T : Type} (m : Message T) : T := m.data

/-- The comparison `Message::operator<`: compares priorities only. -/
def Message.lt {T : Type} (l r : Message T) : Bool := decide (l.priority < r.priority)

/-! ## The heap algorithms behind `std::priority_queue`

`priority_queue::push` is `c.push_back(x); std::push_heap(c.begin(), c.end(), comp)`,
`priority_queue::pop` is `std::pop_heap(c.begin(), c.end(), comp); c.pop_back()`,
`priority_queue::top` is `c.front()`.  The heap algorithms are not part of the
repository; they are embedded from the standard library, following
`bits/stl_heap.h` of libstdc++ (`__push_heap`, `__adjust_heap`, `__pop_heap`);
the routines `_Push_heap_by_index` and `_Pop_heap_hole_by_index` of the MSVC
library perform the same steps.  The comparison is `comp = less<Msg>`, that is
`Message.lt`.  Reads `*(first + i)` are `first.getD i value`; every index read
is in range.
-/

/-- The loop of `__push_heap(first, holeIndex, topIndex, value, comp)`:
`while (holeIndex > topIndex && comp(first[parent], value))` moves the parent
down into the hole; on exit the value is stored in the hole.  The first
argument bounds the number of iterations; `holeIndex` iterations always
suffice because the hole index strictly decreases. -/
def push_heap_loop {T : Type} (value : Message T) (topIndex : Nat) :
    Nat → List (Message T) → Nat → List (Message T)
  | 0, first, holeIndex => first.set holeIndex value
  | fuel + 1, first, holeIndex =>
    let parent := (holeIndex - 1) / 2
    if holeIndex > topIndex && (first.getD parent value).lt value then
      push_heap_loop value topIndex fuel (first.set holeIndex (first.getD parent value)) parent
    else
      first.set holeIndex value

/-- The routine `__push_heap(first, holeIndex, topIndex, value, comp)`. -/
def push_heap_at {T : Type} (first : List (Message T)) (holeIndex topIndex : Nat)
    (value : Message T) : List (Message T) :=
  push_heap_loop value topIndex holeIndex first holeIndex

/-- The algorithm `std::push_heap(first, last, comp)`: the value is the last
element, the hole starts at index `last - first - 1`, the top is index 0. -/
def push_heap {T : Type} (c : List (Message T)) : List (Message T) :=
  match c.getLast? with
  | some value => push_heap_at c (c.length - 1) 0 value
  | none => c

/-- The first loop of `__adjust_heap(first, holeIndex, len, value, comp)`:
`while (secondChild < (len - 1) / 2)` moves the larger child up into the hole
(the left child when `comp(first[secondChild], first[secondChild - 1])`).
Returns the vector together with `holeIndex` and `secondChild`.  The first
argument bounds the number of iterations; `len` iterations always suffice
because `secondChild` strictly increases. -/
def adjust_heap_loop {T : Type} (len : Nat) (value : Message T) :
    Nat → List (Message T) → Nat → Nat → List (Message T) × Nat × Nat
  | 0, first, holeIndex, secondChild => (first, holeIndex, secondChild)
  | fuel + 1, first, holeIndex, secondChild =>
    if secondChild < (len - 1) / 2 then
      let sc := 2 * (secondChild + 1)
      let sc := if (first.getD sc value).lt (first.getD (sc - 1) value) then sc - 1 else sc
      adjust_heap_loop len value fuel (first.set holeIndex (first.getD sc value)) sc sc
    else
      (first, holeIndex, secondChild)

/-- The routine `__adjust_heap(first, holeIndex, len, value, comp)`: percolate
the hole down to the bottom, handle the single left child of an even-length
heap, then `__push_heap` the value up from the hole.  It is called with
`1 ≤ len` only (see `pop_heap`), where the index arithmetic on `Nat` agrees
with the signed arithmetic of the source. -/
def adjust_heap {T : Type} (first : List (Message T)) (holeIndex len : Nat)
    (value : Message T) : List (Message T) :=
  let topIndex := holeIndex
  let (first, holeIndex, secondChild) := adjust_heap_loop len value len first holeIndex holeIndex
  if len % 2 = 0 ∧ secondChild = (len - 2) / 2 then
    let secondChild := 2 * (secondChild + 1)
    push_heap_at (first.set holeIndex (first.getD (secondChild - 1) value))
      (secondChild - 1) topIndex value
  else
    push_heap_at first holeIndex topIndex value

/-- The algorithm `std::pop_heap(first, last, comp)`: when there is more than
one element, `__pop_heap` saves the last element as `value`, stores the first
element in the last slot and calls `__adjust_heap(first, 0, last - 1 - first, value)`. -/
def pop_heap {T : Type} (c : List (Message T)) : List (Message T) :=
  if c.length > 1 then
    match c.getLast?, c.head? with
    | some value, some front => adjust_heap (c.set (c.length - 1) front) 0 (c.length - 1) value
    | _, _ => c
  else c

/-- The adaptor call `priority_queue::push(x)`. -/
def pq_push {T : Type} (c : List (Message T)) (x : Message T) : List (Message T) :=
  push_heap (c ++ [x])

/-- The adaptor call `priority_queue::pop()`. -/
def pq_pop {T : Type} (c : List (Message T)) : List (Message T) :=
  (pop_heap c).dropLast

/-- The adaptor call `priority_queue::top()` (`c.front()`), on a non-empty queue. -/
def pq_top {T : Type} (c : List (Message T)) : Option (Message T) := c.head?

/-! ## Return codes, observer signals (message_queue.h, lines 12-19 and 63-68) -/

/-- The enumeration `RetCode`. -/
inductive RetCode where
  | OK
  | HWM
  | NO_SPACE
  | STOPPED
deriving DecidableEq, Repr

/-- The four member functions of the interface `IMessageQueueEvent`. -/
inductive Signal where
  | on_start
  | on_stop
  | on_hwm
  | on_lwm
deriving DecidableEq, Repr

/-- A call made on the condition variable `_cv` during an operation. -/
inductive Notify where
  | none
  | notify_one
  | notify_all
deriving DecidableEq, Repr

/-- An observer pointer `IMessageQueueEvent*` is represented by its address. -/
abbrev Observer := Nat

/-! ## The class `MessageQueue<T>` (message_queue.h, lines 75-120) -/

/-- The data members of `MessageQueue<T>`.  The member `_queue` is the vector
underlying the `priority_queue`; `pEvent = none` is the `NULL` pointer.  The
mutex and the condition variable carry no data. -/
structure MessageQueue (T : Type) where
  hwm : Int
  lwm : Int
  queue_size : Int
  pEvent : Option Observer
  _queue : List (Message T)
  bIsStopped : Bool
deriving DecidableEq, Repr

/-- The constructor `MessageQueue(int queue_size, int lwm, int hwm)`. -/
def MessageQueue.new {T : Type} (queue_size lwm hwm : Int) : MessageQueue T :=
  { hwm := hwm, lwm := lwm, queue_size := queue_size, pEvent := none, _queue := [],
    bIsStopped := false }

/-- The accessor `isStopped()`. -/
def MessageQueue.isStopped {T : Type} (q : MessageQueue T) : Bool := q.bIsStopped

/-- The result of a member function that always returns: the new state, the
signals delivered to the registered observer (in order) and the notification
made on `_cv`. -/
structure Effect (T : Type) where
  q : MessageQueue T
  signals : List Signal
  notify : Notify
deriving DecidableEq, Repr

/-- The member function `MessageQueue<T>::put` (message_queue.cpp, lines 52-68). -/
def MessageQueue.put {T : Type} (q : MessageQueue T) (message : T) (priority : Int) :
    RetCode × Effect T :=
  let msg := Message.ofInt message priority
  let c := pq_push q._queue msg
  let notify := if c.length = 1 then Notify.notify_one else Notify.none
  let signals :=
    if q.pEvent.isSome && decide (c.length ≥ toUnsigned q.hwm) then [Signal.on_hwm] else []
  (RetCode.OK, { q := { q with _queue := c }, signals := signals, notify := notify })

/-- The outcome of `get`, or of resuming a suspended `get`: either the call
returns (return code, value of the caller's `message` variable, new state,
signals delivered), or the caller is suspended in `_cv.wait(_mutex)` with the
state unchanged. -/
inductive GetResult (T : Type) where
  | returned (ret : RetCode) (message : T) (q : MessageQueue T) (signals : List Signal)
  | waiting
deriving DecidableEq, Repr

/-- The test `while (_queue.size() == 0)` of `get` and the code after the loop
(message_queue.cpp, lines 80 and 92-102): on an empty queue (no `front()`) the
caller enters `_cv.wait`; otherwise the payload of `top()` is assigned to
`message`, the top is popped and `on_lwm` is delivered when the new size is at
most `(unsigned)lwm`. -/
def MessageQueue.get_loop {T : Type} (q : MessageQueue T) : GetResult T :=
  match pq_top q._queue with
  | none => GetResult.waiting
  | some top =>
    let message := top.get_data
    let c := pq_pop q._queue
    let signals :=
      if q.pEvent.isSome && decide (c.length ≤ toUnsigned q.lwm) then [Signal.on_lwm] else []
    GetResult.returned RetCode.OK message { q with _queue := c } signals

/-- The member function `MessageQueue<T>::get` from its entry up to its return
or its first `_cv.wait` (message_queue.cpp, lines 71-83); `message` is the
value of the caller's variable on entry. -/
def MessageQueue.get {T : Type} (q : MessageQueue T) (message : T) : GetResult T :=
  if q.isStopped then GetResult.returned RetCode.STOPPED message q []
  else q.get_loop

/-- The continuation of `get` when `_cv.wait` returns (message_queue.cpp,
lines 84-90, then back to the loop test): `STOPPED` when the queue is empty and
stopped, otherwise the loop test is evaluated again. -/
def MessageQueue.get_resume {T : Type} (q : MessageQueue T) (message : T) : GetResult T :=
  if q._queue.length = 0 && q.isStopped then GetResult.returned RetCode.STOPPED message q []
  else q.get_loop

/-- The member function `MessageQueue<T>::run` (message_queue.cpp, lines 106-114). -/
def MessageQueue.run {T : Type} (q : MessageQueue T) : Effect T :=
  { q := q, signals := if q.pEvent.isSome then [Signal.on_start] else [], notify := Notify.none }

/-- The loop `while (_queue.size() > 0) _queue.pop();` of `stop`.  The first
argument bounds the number of iterations; `size()` iterations suffice. -/
def stop_loop {T : Type} : Nat → List (Message T) → List (Message T)
  | 0, c => c
  | fuel + 1, c => if c.length > 0 then stop_loop fuel (pq_pop c) else c

/-- The member function `MessageQueue<T>::stop` (message_queue.cpp, lines 117-133). -/
def MessageQueue.stop {T : Type} (q : MessageQueue T) : Effect T :=
  { q := { q with bIsStopped := true, _queue := stop_loop q._queue.length q._queue },
    signals := if q.pEvent.isSome then [Signal.on_stop] else [],
    notify := Notify.notify_all }

/-- The member function `MessageQueue<T>::set_event` (message_queue.cpp, lines 136-140). -/
def MessageQueue.set_event {T : Type} (q : MessageQueue T)
    (pIMessageQueueEvent : Option Observer) : MessageQueue T :=
  { q with pEvent := pIMessageQueueEvent }

/-! ## Sequences of calls by a single caller -/

/-- A call of a public member function of `MessageQueue<T>`. -/
inductive Call (T : Type) where
  | put (message : T) (priority : Int)
  | get (message : T)
  | run
  | stop
  | set_event (pIMessageQueueEvent : Option Observer)
deriving DecidableEq, Repr

/-- The state after one call; a `get` that suspends leaves the state unchanged. -/
def MessageQueue.call {T : Type} (q : MessageQueue T) : Call T → MessageQueue T
  | Call.put message priority => (q.put message priority).2.q
  | Call.get message =>
    match q.get message with
    | GetResult.returned _ _ q2 _ => q2
    | GetResult.waiting => q
  | Call.run => q.run.q
  | Call.stop => q.stop.q
  | Call.set_event p => q.set_event p

/-- The state after a sequence of calls, in order. -/
def MessageQueue.calls {T : Type} (q : MessageQueue T) (cs : List (Call T)) : MessageQueue T :=
  cs.foldl MessageQueue.call q

/-- A sequence of `put(message, priority)` calls, in order. -/
def MessageQueue.puts {T : Type} (q : MessageQueue T) : List (T × Int) → MessageQueue T
  | [] => q
  | e :: rest => MessageQueue.puts (q.put e.1 e.2).2.q rest

/-- The results `(return code, message variable)` of `n` successive
`get(message)` calls by one caller on the variable `message`, and the final
state.  A `get` that suspends never returns when nobody else uses the queue,
so the results end there. -/
def MessageQueue.gets {T : Type} : Nat → MessageQueue T → T → List (RetCode × T) × MessageQueue T
  | 0, q, _ => ([], q)
  | n + 1, q, message =>
    match q.get message with
    | GetResult.returned ret message2 q2 _ =>
      let r := MessageQueue.gets n q2 message2
      ((ret, message2) :: r.1, r.2)
    | GetResult.waiting => ([], q)

/-! ## Step model with suspended consumers -/

/-- The queue together with the consumers inside `get`: `waiting` are the
callers blocked in `_cv.wait` (thread id and `message` variable, oldest first),
`woken` are the callers that were notified and have not yet re-acquired
`_mutex`, `returned` records the completed `get` calls in order. -/
structure Sched (T : Type) where
  q : MessageQueue T
  waiting : List (Nat × T)
  woken : List (Nat × T)
  returned : List (Nat × RetCode × T)
deriving DecidableEq, Repr

/-- A step of the system: a complete `put` or `stop`, the entry of thread `tid`
into `get`, or a notified thread re-acquiring the mutex inside `get`. -/
inductive Event (T : Type) where
  | put (message : T) (priority : Int)
  | get (tid : Nat) (message : T)
  | resume (tid : Nat)
  | stop
deriving DecidableEq, Repr

/-- The effect of a notification on the blocked callers: `notify_one` wakes the
oldest waiter (if any), `notify_all` wakes every waiter. -/
def Sched.wake {T : Type} (s : Sched T) : Notify → Sched T
  | Notify.none => s
  | Notify.notify_one =>
    match s.waiting with
    | [] => s
    | w :: ws => { s with waiting := ws, woken := s.woken ++ [w] }
  | Notify.notify_all => { s with waiting := [], woken := s.woken ++ s.waiting }

/-- One step of the system. -/
def Sched.step {T : Type} (s : Sched T) : Event T → Sched T
  | Event.put message priority =>
    let r := s.q.put message priority
    Sched.wake { s with q := r.2.q } r.2.notify
  | Event.stop =>
    let r := s.q.stop
    Sched.wake { s with q := r.q } r.notify
  | Event.get tid message =>
    match s.q.get message with
    | GetResult.returned ret message2 q2 _ =>
      { s with q := q2, returned := s.returned ++ [(tid, ret, message2)] }
    | GetResult.waiting => { s with waiting := s.waiting ++ [(tid, message)] }
  | Event.resume tid =>
    match s.woken.find? (fun w => w.1 == tid) with
    | none => s
    | some w =>
      let woken := s.woken.filter (fun v => v.1 != tid)
      match s.q.get_resume w.2 with
      | GetResult.returned ret message2 q2 _ =>
        { s with q := q2, woken := woken, returned := s.returned ++ [(tid, ret, message2)] }
      | GetResult.waiting => { s with woken := woken, waiting := s.waiting ++ [w] }

/-- The system after a schedule of steps. -/
def Sched.steps {T : Type} (s : Sched T) (es : List (Event T)) : Sched T :=
  es.foldl Sched.step s

/-- The system around a queue that nobody is using yet. -/
def Sched.init {T : Type} (q : MessageQueue T) : Sched T :=
  { q := q, waiting := [], woken := [], returned := [] }

/-! ## The class `EventManager` (message_queue.h 242-252, message_queue.cpp 306-339) -/

/-- The data member `events` of `EventManager`. -/
structure EventManager where
  events : List Observer
deriving DecidableEq, Repr

/-- The member function `EventManager::Add`: `push_back`, returns the new size. -/
def EventManager.Add (em : EventManager) (pEvent : Observer) : Nat × EventManager :=
  let events := em.events ++ [pEvent]
  (events.length, { events := events })

/-- The loop `for (it = events.begin(); it != events.end(); it++) (*it)->signal()`:
the list of member-function calls made, in order. -/
def EventManager.forEach (s : Signal) : List Observer → List (Observer × Signal)
  | [] => []
  | it :: rest => (it, s) :: EventManager.forEach s rest

/-- The member function `EventManager::on_start`: the calls made, and the manager afterwards. -/
def EventManager.on_start (em : EventManager) : List (Observer × Signal) × EventManager :=
  (EventManager.forEach Signal.on_start em.events, em)

/-- The member function `EventManager::on_stop`: the calls made, and the manager afterwards. -/
def EventManager.on_stop (em : EventManager) : List (Observer × Signal) × EventManager :=
  (EventManager.forEach Signal.on_stop em.events, em)

/-- The member function `EventManager::on_hwm`: the calls made, and the manager afterwards. -/
def EventManager.on_hwm (em : EventManager) : List (Observer × Signal) × EventManager :=
  (EventManager.forEach Signal.on_hwm em.events, em)

/-- The member function `EventManager::on_lwm`: the calls made, and the manager afterwards. -/
def EventManager.on_lwm (em : EventManager) : List (Observer × Signal) × EventManager :=
  (EventManager.forEach Signal.on_lwm em.events, em)

/-- The manager after the successive calls `Add(o1)`, ..., `Add(on)` on an empty manager. -/
def EventManager.registered (os : List Observer) : EventManager :=
  os.foldl (fun em o => (em.Add o).2) { events := [] }

/-! ## The class `Writer<T>` (message_queue.h 130-178, message_queue.cpp 155-231) -/

/-- The enumeration `Writer::WriterStat`. -/
inductive WriterStat where
  | IDLE
  | RUN
  | PAUSED
  | ABORTED
deriving DecidableEq, Repr

/-- The thread object behind `pThread`: whether its procedure `run_safe` is
still inside `while (true)`, and the results of `rand()` that the procedure has
not consumed yet. -/
structure WriterThread where
  alive : Bool
  rands : List Nat
deriving DecidableEq, Repr

/-- The data members `_stat` and `pThread` of `Writer<T>` (`pThread = none` is
`NULL`); the queue behind `pQueue` is passed alongside the writer. -/
structure Writer where
  _stat : WriterStat
  pThread : Option WriterThread
deriving DecidableEq, Repr

/-- The constructor `Writer(MessageQueue<T>* pQueue)`: `pThread(NULL)`, `_stat(IDLE)`. -/
def Writer.new : Writer := { _stat := WriterStat.IDLE, pThread := none }

/-- The handler `Writer::on_stop`. -/
def Writer.on_stop (w : Writer) : Writer := { w with _stat := WriterStat.ABORTED }

/-- The handler `Writer::on_hwm`. -/
def Writer.on_hwm (w : Writer) : Writer :=
  if w._stat = WriterStat.RUN then { w with _stat := WriterStat.PAUSED } else w

/-- The handler `Writer::on_lwm`. -/
def Writer.on_lwm (w : Writer) : Writer :=
  if w._stat = WriterStat.PAUSED then { w with _stat := WriterStat.RUN } else w

/-- The environment of a writer: `make priority` is the message built at lines
186-207 (`none` for an element type that is neither `string` nor `int`, where
the thread leaves the loop), `observed` tells whether the queue's observer
forwards its signals to this writer, `rands` are the successive results of
`rand()` in a thread of this writer (every thread seeds the generator with the
writer's address, line 166; 0 once the list is used up), and `fuel` bounds the number of iterations of
`while (true)` that are run at a time. -/
structure WriterEnv (T : Type) where
  make : Int → Option T
  observed : Bool
  rands : List Nat
  fuel : Nat

/-- The state after some iterations of a writer thread: the writer, its queue,
and the thread (alive when it has not left the loop). -/
structure ThreadRun (T : Type) where
  w : Writer
  q : MessageQueue T
  thread : WriterThread
deriving DecidableEq, Repr

/-- The loop `while (true)` of `Writer<T>::run_safe` (message_queue.cpp, lines
168-215) on the writer and its queue, for at most the given number of
iterations.  The thread leaves the loop at the two `break`s.  The `put` may
deliver `on_hwm`, which reaches this writer when it is observed. -/
def Writer.run_safe_loop {T : Type} (make : Int → Option T) (observed : Bool) :
    Nat → List Nat → Writer → MessageQueue T → ThreadRun T
  | 0, rands, w, q => { w := w, q := q, thread := { alive := true, rands := rands } }
  | fuel + 1, rands, w, q =>
    if q.isStopped then { w := w, q := q, thread := { alive := false, rands := rands } }
    else if w._stat = WriterStat.PAUSED then
      Writer.run_safe_loop make observed fuel rands w q
    else
      let r := rands.headD 0
      let priority : Int := ((r % 1000 : Nat) : Int)
      match make priority with
      | none => { w := w, q := q, thread := { alive := false, rands := rands.tail } }
      | some message =>
        let res := q.put message priority
        let w := if observed then res.2.signals.foldl (fun v _ => Writer.on_hwm v) w else w
        Writer.run_safe_loop make observed fuel rands.tail w res.2.q

/-- The thread procedure `Writer<T>::run_safe` (message_queue.cpp, lines
155-216): `pThis->_stat = RUN`, then the loop. -/
def Writer.run_safe {T : Type} (env : WriterEnv T) (w : Writer) (q : MessageQueue T) :
    ThreadRun T :=
  Writer.run_safe_loop env.make env.observed env.fuel env.rands
    { w with _stat := WriterStat.RUN } q

/-- The statement `pThread = new tthread::thread(run_safe, this)` of `run`, with
the new thread run for the environment's number of iterations. -/
def Writer.start_thread {T : Type} (env : WriterEnv T) (w : Writer) (q : MessageQueue T) :
    Writer × MessageQueue T :=
  let r := Writer.run_safe env w q
  ({ r.w with pThread := some r.thread }, r.q)

/-- The member function `Writer<T>::run` (message_queue.cpp, lines 219-231).
When `pThread` is set, `pThread->join()` waits for the previous thread: a thread
that has left its loop is joined at once; a thread still in its loop goes on
(for the environment's number of iterations) and, as long as it has not left
the loop, `join` has not returned, so no new thread is created and `_stat` is
not assigned.  The caller is taken not to hold the queue's mutex. -/
def Writer.run {T : Type} (env : WriterEnv T) (w : Writer) (q : MessageQueue T) :
    Writer × MessageQueue T :=
  match w.pThread with
  | none => Writer.start_thread env w q
  | some t =>
    if t.alive then
      let r := Writer.run_safe_loop env.make env.observed env.fuel t.rands w q
      if r.thread.alive then ({ r.w with pThread := some r.thread }, r.q)
      else Writer.start_thread env r.w r.q
    else Writer.start_thread env w q

/-- The handler `Writer::on_start`, which calls `run()`. -/
def Writer.on_start {T : Type} (env : WriterEnv T) (w : Writer) (q : MessageQueue T) :
    Writer × MessageQueue T :=
  Writer.run env w q

/-- The delivery of one signal to a writer: the writer and its queue afterwards. -/
def Writer.signal {T : Type} (env : WriterEnv T) (w : Writer × MessageQueue T) :
    Signal → Writer × MessageQueue T
  | Signal.on_start => Writer.on_start env w.1 w.2
  | Signal.on_stop => (Writer.on_stop w.1, w.2)
  | Signal.on_hwm => (Writer.on_hwm w.1, w.2)
  | Signal.on_lwm => (Writer.on_lwm w.1, w.2)

/-- The delivery of a sequence of signals to a writer, in order. -/
def Writer.signals {T : Type} (env : WriterEnv T) (w : Writer × MessageQueue T)
    (ss : List Signal) : Writer × MessageQueue T :=
  ss.foldl (Writer.signal env) w

/-- The effective priority of a `put(message, priority)` call. -/
def effPriority {T : Type} (e : T × Int) : Nat := toUShort e.2

/-- Insert `e` behind every entry whose effective priority is at least its own. -/
def stableInsert {T : Type} (e : T × Int) : List (T × Int) → List (T × Int)
  | [] => [e]
  | x :: xs => if effPriority x ≥ effPriority e then x :: stableInsert e xs else e :: x :: xs

/-- The stable sort of the enqueue order by descending effective priority:
entries are taken in enqueue order and each is placed behind the entries of
equal or higher priority placed before it. -/
def stableSortDesc {T : Type} (ps : List (T × Int)) : List (T × Int) :=
  ps.foldl (fun acc e => stableInsert e acc) []

/-! ## Example states -/

/-- A queue built by `MessageQueue<string> q(100, 1, 2)`, `set_event` with the
observer at address 7, then `put("a", 5)` and `put("b", 6)`. -/
def watermarkExample : MessageQueue String :=
  ((MessageQueue.new 100 1 2 : MessageQueue String).set_event (some 7)).puts
    [("a", 5), ("b", 6)]

/-! ## Predicates used in the statements -/

/-- The priority stored at index `i` of the vector (0 outside the vector). -/
def prioAt {T : Type} (v : List (Message T)) (i : Nat) : Nat :=
  (v[i]?.map Message.priority).getD 0

/-- The first `len` elements form a max-heap for `Message.lt`: no element is
smaller than a child (the parent of index `i` is `(i - 1) / 2`). -/
def HeapUpTo {T : Type} (v : List (Message T)) (len : Nat) : Prop :=
  ∀ i, 0 < i → i < len → prioAt v i ≤ prioAt v ((i - 1) / 2)

/-- The whole vector is a max-heap for `Message.lt`. -/
def IsHeap {T : Type} (v : List (Message T)) : Prop := HeapUpTo v v.length

/-! ## Theorems: the heap algorithms -/

theorem getD_priority {T : Type} (v : List (Message T)) (i : Nat) (d : Message T)
    (h : i < v.length) : (v.getD i d).priority = prioAt v i := by
  simp [prioAt, List.getD_eq_getElem _ _ h, List.getElem?_eq_getElem h]

theorem prioAt_set_self {T : Type} (v : List (Message T)) (j : Nat) (x : Message T)
    (h : j < v.length) : prioAt (v.set j x) j = x.priority := by
  simp [prioAt, h]

theorem prioAt_set_ne {T : Type} (v : List (Message T)) (i j : Nat) (x : Message T)
    (h : i ≠ j) : prioAt (v.set j x) i = prioAt v i := by
  simp [prioAt, List.getElem?_set_ne (Ne.symm h)]

theorem getD_cons_set_perm {T : Type} (d x : Message T) :
    ∀ (t : List (Message T)) (k : Nat), k < t.length →
      (t.getD k d :: t.set k x).Perm (x :: t) := by
  intro t
  induction t with
  | nil => intro k hk; simp at hk
  | cons b u ih =>
    intro k hk
    cases k with
    | zero => simpa using List.Perm.swap x b u
    | succ m =>
      have hm : m < u.length := by simpa using hk
      have h1 := ih m hm
      simp only [List.getD_cons_succ, List.set_cons_succ]
      exact ((List.Perm.swap b (u.getD m d) (u.set m x)).trans (h1.cons b)).trans
        (List.Perm.swap x b u)

theorem set_swap_perm {T : Type} (d x : Message T) :
    ∀ (v : List (Message T)) (i j : Nat), i ≠ j → i < v.length → j < v.length →
      ((v.set i (v.getD j d)).set j x).Perm (v.set i x) := by
  intro v
  induction v with
  | nil => intro i j _ hi; simp at hi
  | cons a t ih =>
    intro i j hij hi hj
    cases i with
    | zero =>
      cases j with
      | zero => exact absurd rfl hij
      | succ k =>
        have hk : k < t.length := by simpa using hj
        simpa using getD_cons_set_perm d x t k hk
    | succ k =>
      have hk : k < t.length := by simpa using hi
      cases j with
      | zero =>
        simp only [List.getD_cons_zero, List.set_cons_succ, List.set_cons_zero]
        have h1 := getD_cons_set_perm d a t k hk
        have h2 := getD_cons_set_perm d x t k hk
        have h3 : (t.getD k d :: x :: t.set k a).Perm (t.getD k d :: a :: t.set k x) :=
          ((List.Perm.swap x (t.getD k d) (t.set k a)).trans (h1.cons x)).trans
            ((List.Perm.swap a x t).trans ((h2.cons a).symm.trans
              (List.Perm.swap (t.getD k d) a (t.set k x))))
        exact h3.cons_inv
      | succ m =>
        have hm : m < t.length := by simpa using hj
        simp only [List.getD_cons_succ, List.set_cons_succ]
        exact (ih k m (by omega) hk hm).cons a

theorem store_heap {T : Type} (value : Message T) (len : Nat) (v : List (Message T))
    (hole : Nat) (hlt : hole < len) (hlen : len ≤ v.length)
    (hex : ∀ i, 0 < i → i < len → i ≠ hole → prioAt v i ≤ prioAt v ((i - 1) / 2))
    (hch : ∀ c, 0 < c → c < len → (c - 1) / 2 = hole → prioAt v c ≤ value.priority)
    (hstop : hole = 0 ∨ value.priority ≤ prioAt v ((hole - 1) / 2)) :
    HeapUpTo (v.set hole value) len := by
  intro i hi0 hil
  by_cases hih : i = hole
  · subst hih
    have hp : (i - 1) / 2 ≠ i := by omega
    rw [prioAt_set_self _ _ _ (by omega), prioAt_set_ne _ _ _ _ hp]
    rcases hstop with h | h
    · omega
    · exact h
  · rw [prioAt_set_ne _ _ _ _ hih]
    by_cases hph : (i - 1) / 2 = hole
    · rw [hph, prioAt_set_self _ _ _ (by omega)]
      exact hch i hi0 hil hph
    · rw [prioAt_set_ne _ _ _ _ hph]
      exact hex i hi0 hil hih

theorem push_heap_loop_spec {T : Type} (value : Message T) (len : Nat) :
    ∀ (fuel : Nat) (v : List (Message T)) (hole : Nat),
      hole ≤ fuel → hole < len → len ≤ v.length →
      (∀ i, 0 < i → i < len → i ≠ hole → prioAt v i ≤ prioAt v ((i - 1) / 2)) →
      (∀ c, 0 < c → c < len → (c - 1) / 2 = hole → prioAt v c ≤ value.priority) →
      (∀ c, 0 < c → c < len → (c - 1) / 2 = hole → 0 < hole →
        prioAt v c ≤ prioAt v ((hole - 1) / 2)) →
      HeapUpTo (push_heap_loop value 0 fuel v hole) len ∧
      (push_heap_loop value 0 fuel v hole).Perm (v.set hole value) ∧
      (push_heap_loop value 0 fuel v hole).length = v.length ∧
      (∀ i, len ≤ i → (push_heap_loop value 0 fuel v hole)[i]? = v[i]?) := by
  intro fuel
  induction fuel with
  | zero =>
    intro v hole hf hlt hlen hex hch _
    have h0 : hole = 0 := by omega
    simp only [push_heap_loop]
    refine ⟨store_heap value len v hole hlt hlen hex hch (Or.inl h0), List.Perm.refl _,
      by simp, fun i hi => ?_⟩
    rw [List.getElem?_set_ne (by omega)]
  | succ n ih =>
    intro v hole hf hlt hlen hex hch hgp
    simp only [push_heap_loop]
    by_cases hc : (decide (hole > 0) && (v.getD ((hole - 1) / 2) value).lt value) = true
    · rw [if_pos hc]
      simp only [Bool.and_eq_true, decide_eq_true_eq, Message.lt] at hc
      obtain ⟨hpos, hltv⟩ := hc
      have hpl : (hole - 1) / 2 < v.length := by omega
      rw [getD_priority v _ value hpl] at hltv
      have hne : (hole - 1) / 2 ≠ hole := by omega
      have key := ih (v.set hole (v.getD ((hole - 1) / 2) value)) ((hole - 1) / 2)
        (by omega) (by omega) (by simpa using hlen)
        (by
          intro i hi0 hil hip
          by_cases hih : i = hole
          · subst hih
            rw [prioAt_set_self _ _ _ (by omega), prioAt_set_ne _ _ _ _ hne,
              getD_priority v _ value hpl]
          · rw [prioAt_set_ne _ _ _ _ hih]
            by_cases hph : (i - 1) / 2 = hole
            · rw [hph, prioAt_set_self _ _ _ (by omega), getD_priority v _ value hpl]
              exact hgp i hi0 hil hph hpos
            · rw [prioAt_set_ne _ _ _ _ hph]
              exact hex i hi0 hil hih)
        (by
          intro c hc0 hcl hcp
          by_cases hch2 : c = hole
          · subst hch2
            rw [prioAt_set_self _ _ _ (by omega), getD_priority v _ value hpl]
            omega
          · rw [prioAt_set_ne _ _ _ _ hch2]
            have := hex c hc0 hcl hch2
            rw [hcp] at this
            omega)
        (by
          intro c hc0 hcl hcp hp0
          have hgne : ((hole - 1) / 2 - 1) / 2 ≠ hole := by omega
          have hpar := hex ((hole - 1) / 2) hp0 (by omega) hne
          rw [prioAt_set_ne _ _ _ _ hgne]
          by_cases hch2 : c = hole
          · subst hch2
            rw [prioAt_set_self _ _ _ (by omega), getD_priority v _ value hpl]
            exact hpar
          · rw [prioAt_set_ne _ _ _ _ hch2]
            have := hex c hc0 hcl hch2
            rw [hcp] at this
            omega)
      obtain ⟨k1, k2, k3, k4⟩ := key
      refine ⟨k1, k2.trans (set_swap_perm value value v hole _ (Ne.symm hne) (by omega) hpl),
        by simpa using k3, fun i hi => ?_⟩
      rw [k4 i hi, List.getElem?_set_ne (by omega)]
    · rw [if_neg hc]
      have hstop : hole = 0 ∨ value.priority ≤ prioAt v ((hole - 1) / 2) := by
        by_cases h0 : hole = 0
        · exact Or.inl h0
        · right
          have hpl : (hole - 1) / 2 < v.length := by omega
          simp only [Bool.and_eq_true, decide_eq_true_eq, Message.lt, not_and, not_lt] at hc
          have := hc (by omega)
          rwa [getD_priority v _ value hpl] at this
      refine ⟨store_heap value len v hole hlt hlen hex hch hstop, List.Perm.refl _,
        by simp, fun i hi => ?_⟩
      rw [List.getElem?_set_ne (by omega)]

theorem adjust_heap_loop_spec {T : Type} (value : Message T) (len : Nat) :
    ∀ (fuel : Nat) (v : List (Message T)) (hole : Nat),
      len ≤ fuel + hole → hole < len → len ≤ v.length → HeapUpTo v len →
      HeapUpTo (adjust_heap_loop len value fuel v hole hole).1 len ∧
      (adjust_heap_loop len value fuel v hole hole).2.1 =
        (adjust_heap_loop len value fuel v hole hole).2.2 ∧
      (adjust_heap_loop len value fuel v hole hole).2.1 < len ∧
      ¬ ((adjust_heap_loop len value fuel v hole hole).2.2 < (len - 1) / 2) ∧
      (((adjust_heap_loop len value fuel v hole hole).1.set
          (adjust_heap_loop len value fuel v hole hole).2.1 value).Perm (v.set hole value)) ∧
      (adjust_heap_loop len value fuel v hole hole).1.length = v.length ∧
      (∀ i, len ≤ i → (adjust_heap_loop len value fuel v hole hole).1[i]? = v[i]?) := by
  intro fuel
  induction fuel with
  | zero =>
    intro v hole hf hlt _ _
    omega
  | succ n ih =>
    intro v hole hf hlt hlen hh
    simp only [adjust_heap_loop]
    by_cases hc : hole < (len - 1) / 2
    · rw [if_pos hc]
      have hr : 2 * (hole + 1) < v.length := by omega
      have hl : 2 * (hole + 1) - 1 < v.length := by omega
      have eR := hh (2 * (hole + 1)) (by omega) (by omega)
      have eL := hh (2 * (hole + 1) - 1) (by omega) (by omega)
      have pR : (2 * (hole + 1) - 1) / 2 = hole := by omega
      have pL : (2 * (hole + 1) - 1 - 1) / 2 = hole := by omega
      rw [pR] at eR
      rw [pL] at eL
      generalize hsc : (if (v.getD (2 * (hole + 1)) value).lt
          (v.getD (2 * (hole + 1) - 1) value) = true then 2 * (hole + 1) - 1
          else 2 * (hole + 1)) = sc
      have hsc2 : (sc = 2 * (hole + 1) - 1 ∨ sc = 2 * (hole + 1)) ∧
          prioAt v (2 * (hole + 1)) ≤ prioAt v sc ∧
          prioAt v (2 * (hole + 1) - 1) ≤ prioAt v sc := by
        by_cases hlt2 : (v.getD (2 * (hole + 1)) value).lt (v.getD (2 * (hole + 1) - 1) value) = true
        · rw [if_pos hlt2] at hsc
          simp only [Message.lt, decide_eq_true_eq] at hlt2
          rw [getD_priority v _ value hr, getD_priority v _ value hl] at hlt2
          subst hsc
          exact ⟨Or.inl rfl, by omega, le_refl _⟩
        · rw [if_neg hlt2] at hsc
          simp only [Message.lt, decide_eq_true_eq, not_lt] at hlt2
          rw [getD_priority v _ value hr, getD_priority v _ value hl] at hlt2
          subst hsc
          exact ⟨Or.inr rfl, le_refl _, hlt2⟩
      obtain ⟨hscv, hmR, hmL⟩ := hsc2
      have hscl : sc < v.length := by omega
      have hscp : (sc - 1) / 2 = hole := by omega
      have hsch : prioAt v sc ≤ prioAt v hole := by
        rcases hscv with h | h
        · rw [h]; exact eL
        · rw [h]; exact eR
      have key := ih (v.set hole (v.getD sc value)) sc (by omega) (by omega)
        (by simpa using hlen)
        (by
          intro i hi0 hil
          by_cases hih : i = hole
          · subst hih
            have hp : (i - 1) / 2 ≠ i := by omega
            rw [prioAt_set_self _ _ _ (by omega), prioAt_set_ne _ _ _ _ hp,
              getD_priority v _ value hscl]
            exact le_trans hsch (hh i hi0 hil)
          · rw [prioAt_set_ne _ _ _ _ hih]
            by_cases hph : (i - 1) / 2 = hole
            · rw [hph, prioAt_set_self _ _ _ (by omega), getD_priority v _ value hscl]
              have hi2 : i = 2 * (hole + 1) - 1 ∨ i = 2 * (hole + 1) := by omega
              rcases hi2 with h | h
              · rw [h]; exact hmL
              · rw [h]; exact hmR
            · rw [prioAt_set_ne _ _ _ _ hph]
              exact hh i hi0 hil)
      obtain ⟨k1, k2, k3, k4, k5, k6, k7⟩ := key
      refine ⟨k1, k2, k3, k4,
        k5.trans (set_swap_perm value value v hole sc (by omega) (by omega) hscl),
        by simpa using k6, fun i hi => ?_⟩
      rw [k7 i hi, List.getElem?_set_ne (by omega)]
    · rw [if_neg hc]
      exact ⟨hh, rfl, hlt, hc, List.Perm.refl _, rfl, fun _ _ => rfl⟩

theorem adjust_heap_spec {T : Type} (value : Message T) (v : List (Message T)) (len : Nat)
    (h1 : 1 ≤ len) (hlen : len ≤ v.length) (hh : HeapUpTo v len) :
    HeapUpTo (adjust_heap v 0 len value) len ∧
    (adjust_heap v 0 len value).Perm (v.set 0 value) ∧
    (adjust_heap v 0 len value).length = v.length ∧
    (∀ i, len ≤ i → (adjust_heap v 0 len value)[i]? = v[i]?) := by
  have key := adjust_heap_loop_spec value len len v 0 (by omega) (by omega) hlen hh
  unfold adjust_heap
  generalize adjust_heap_loop len value len v 0 0 = R at key
  obtain ⟨r, h2, sc2⟩ := R
  obtain ⟨k1, k2, k3, k4, k5, k6, k7⟩ := key
  simp only at k1 k2 k3 k4 k5 k6 k7
  subst k2
  simp only [push_heap_at]
  by_cases hsp : len % 2 = 0 ∧ h2 = (len - 2) / 2
  · rw [if_pos hsp]
    obtain ⟨hev, hh2⟩ := hsp
    have hj : 2 * (h2 + 1) - 1 = len - 1 := by omega
    rw [hj]
    have hjl : len - 1 < r.length := by omega
    have hjp : (len - 1 - 1) / 2 = h2 := by omega
    have ej := k1 (len - 1) (by omega) (by omega)
    rw [hjp] at ej
    have key2 := push_heap_loop_spec value len (len - 1) (r.set h2 (r.getD (len - 1) value))
      (len - 1) (le_refl _) (by omega) (by simpa using (by omega : len ≤ r.length))
      (by
        intro i hi0 hil hij
        by_cases hih : i = h2
        · subst hih
          have hp : (i - 1) / 2 ≠ i := by omega
          rw [prioAt_set_self _ _ _ (by omega), prioAt_set_ne _ _ _ _ hp,
            getD_priority r _ value hjl]
          exact le_trans ej (k1 i hi0 hil)
        · rw [prioAt_set_ne _ _ _ _ hih]
          have hph : (i - 1) / 2 ≠ h2 := by omega
          rw [prioAt_set_ne _ _ _ _ hph]
          exact k1 i hi0 hil)
      (by intro c hc0 hcl hcp; omega)
      (by intro c hc0 hcl hcp; omega)
    obtain ⟨p1, p2, p3, p4⟩ := key2
    refine ⟨p1, p2.trans ((set_swap_perm value value r h2 (len - 1) (by omega) (by omega)
      hjl).trans k5), by simpa [k6] using p3, fun i hi => ?_⟩
    rw [p4 i hi, List.getElem?_set_ne (by omega), k7 i hi]
  · rw [if_neg hsp]
    have key2 := push_heap_loop_spec value len h2 r h2 (le_refl _) k3 (by omega)
      (by intro i hi0 hil _; exact k1 i hi0 hil)
      (by intro c hc0 hcl hcp; omega)
      (by intro c hc0 hcl hcp; omega)
    obtain ⟨p1, p2, p3, p4⟩ := key2
    refine ⟨p1, p2.trans k5, by rw [p3, k6], fun i hi => ?_⟩
    rw [p4 i hi, k7 i hi]

theorem prioAt_append_left {T : Type} (c t : List (Message T)) (i : Nat)
    (h : i < c.length) : prioAt (c ++ t) i = prioAt c i := by
  simp [prioAt, List.getElem?_append_left h]

theorem set_eq_self_of_getElem {T : Type} (v : List (Message T)) (i : Nat) (x : Message T)
    (h : v[i]? = some x) : v.set i x = v := by
  refine List.ext_getElem? (fun j => ?_)
  by_cases hj : i = j
  · subst hj
    have hl : i < v.length := by
      by_contra hcon
      rw [List.getElem?_eq_none (by omega)] at h
      exact absurd h (by simp)
    rw [List.getElem?_set_self hl, h]
  · rw [List.getElem?_set_ne hj]

theorem pq_push_spec {T : Type} (c : List (Message T)) (x : Message T) (hc : IsHeap c) :
    IsHeap (pq_push c x) ∧ (pq_push c x).Perm (x :: c) ∧
      (pq_push c x).length = c.length + 1 := by
  have hlast : (c ++ [x]).getLast? = some x := by simp
  have hlen : (c ++ [x]).length - 1 = c.length := by simp
  unfold pq_push push_heap
  rw [hlast]
  simp only [push_heap_at, hlen]
  have key := push_heap_loop_spec x (c.length + 1) c.length (c ++ [x]) c.length (le_refl _)
    (by omega) (by simp)
    (by
      intro i hi0 hil hin
      rw [prioAt_append_left c [x] i (by omega), prioAt_append_left c [x] _ (by omega)]
      exact hc i hi0 (by omega))
    (by intro k hk0 hkl hkp; omega)
    (by intro k hk0 hkl hkp; omega)
  obtain ⟨p1, p2, p3, _⟩ := key
  have hset : (c ++ [x]).set c.length x = c ++ [x] :=
    set_eq_self_of_getElem _ _ _ (by simp)
  rw [hset] at p2
  refine ⟨?_, p2.trans (List.perm_append_singleton x c), by simpa using p3⟩
  unfold IsHeap
  rw [p3]
  simpa using p1

theorem heap_le_root {T : Type} (c : List (Message T)) (hc : IsHeap c) :
    ∀ i, i < c.length → prioAt c i ≤ prioAt c 0 := by
  intro i
  induction i using Nat.strong_induction_on with
  | _ i ih =>
    intro hi
    by_cases h0 : i = 0
    · subst h0; exact le_refl _
    · exact le_trans (hc i (by omega) hi) (ih ((i - 1) / 2) (by omega) (by omega))

theorem pq_top_max {T : Type} (c : List (Message T)) (top : Message T) (hc : IsHeap c)
    (ht : pq_top c = some top) : ∀ m ∈ c, m.priority ≤ top.priority := by
  intro m hm
  obtain ⟨i, hi, hmi⟩ := List.mem_iff_getElem.mp hm
  have h1 := heap_le_root c hc i hi
  have e1 : prioAt c i = m.priority := by
    simp [prioAt, List.getElem?_eq_getElem hi, hmi]
  have e2 : prioAt c 0 = top.priority := by
    cases c with
    | nil => simp [pq_top] at ht
    | cons a t =>
      simp only [pq_top, List.head?_cons, Option.some.injEq] at ht
      subst ht
      simp [prioAt]
  omega

theorem pq_pop_spec {T : Type} (c : List (Message T)) (top : Message T) (hc : IsHeap c)
    (ht : pq_top c = some top) :
    IsHeap (pq_pop c) ∧ c.Perm (top :: pq_pop c) ∧ (pq_pop c).length + 1 = c.length := by
  cases c with
  | nil => simp [pq_top] at ht
  | cons a rest =>
    simp only [pq_top, List.head?_cons, Option.some.injEq] at ht
    subst ht
    by_cases hlen : (a :: rest).length > 1
    · obtain ⟨value, hv⟩ : ∃ value, (a :: rest).getLast? = some value := by
        cases hg : (a :: rest).getLast? with
        | none => simp at hg
        | some w => exact ⟨w, rfl⟩
      have hvi : (a :: rest)[(a :: rest).length - 1]? = some value := by
        rw [← List.getLast?_eq_getElem?]; exact hv
      have hpop : pop_heap (a :: rest) =
          adjust_heap ((a :: rest).set ((a :: rest).length - 1) a) 0
            ((a :: rest).length - 1) value := by
        unfold pop_heap
        rw [if_pos hlen, hv]
        simp
      have key := adjust_heap_spec value ((a :: rest).set ((a :: rest).length - 1) a)
        ((a :: rest).length - 1) (by omega) (by simp)
        (by
          intro i hi0 hil
          rw [prioAt_set_ne _ _ _ _ (by omega), prioAt_set_ne _ _ _ _ (by omega)]
          exact hc i hi0 (by omega))
      rw [← hpop] at key
      obtain ⟨k1, k2, k3, k4⟩ := key
      have hk3 : (pop_heap (a :: rest)).length = (a :: rest).length := by simpa using k3
      have hlastr : (pop_heap (a :: rest)).getLast? = some a := by
        rw [List.getLast?_eq_getElem?, hk3, k4 _ (le_refl _),
          List.getElem?_set_self (by omega)]
      have hsplit := List.dropLast_append_getLast? a (by rw [hlastr]; exact rfl)
      have hperm : (pop_heap (a :: rest)).Perm (a :: rest) := by
        have hsw := set_swap_perm value value (a :: rest) ((a :: rest).length - 1) 0
          (by omega) (by omega) (by simp)
        rw [set_eq_self_of_getElem _ _ _ hvi] at hsw
        exact k2.trans (by simpa using hsw)
      unfold pq_pop
      refine ⟨?_, ?_, ?_⟩
      · intro i hi0 hil
        have hdl : (pop_heap (a :: rest)).dropLast.length = (a :: rest).length - 1 := by
          rw [List.length_dropLast, hk3]
        have e1 := prioAt_append_left (pop_heap (a :: rest)).dropLast [a] i hil
        have e2 := prioAt_append_left (pop_heap (a :: rest)).dropLast [a] ((i - 1) / 2)
          (by omega)
        rw [hsplit] at e1 e2
        rw [← e1, ← e2]
        exact k1 i hi0 (by omega)
      · have h2 : ((pop_heap (a :: rest)).dropLast ++ [a]).Perm (a :: rest) := by
          rw [hsplit]; exact hperm
        exact ((List.perm_append_singleton a _).symm.trans h2).symm
      · rw [List.length_dropLast, hk3]
        simp
    · have hrest : rest = [] := by
        cases rest with
        | nil => rfl
        | cons b u => simp at hlen
      subst hrest
      have hp : pq_pop [a] = [] := by
        simp [pq_pop, pop_heap]
      rw [hp]
      refine ⟨?_, List.Perm.refl _, rfl⟩
      intro i _ hil
      simp at hil

theorem perm_map_pullback {α β : Type} (f : α → β) :
    ∀ (l1 : List β) (l2 : List α), l1.Perm (l2.map f) → ∃ l : List α, l.Perm l2 ∧ l.map f = l1 := by
  classical
  intro l1
  induction l1 with
  | nil =>
    intro l2 h
    have : l2.map f = [] := List.Perm.eq_nil h.symm
    have h2 : l2 = [] := by simpa using this
    exact ⟨[], by rw [h2], rfl⟩
  | cons b t ih =>
    intro l2 h
    have hb : b ∈ l2.map f := h.subset (List.mem_cons_self b t)
    obtain ⟨a, ha, hfa⟩ := List.mem_map.mp hb
    have h1 : l2.Perm (a :: l2.erase a) := List.perm_cons_erase ha
    have h2 : (b :: t).Perm (b :: (l2.erase a).map f) := by
      have := h.trans (h1.map f)
      simpa [hfa] using this
    obtain ⟨l, hl1, hl2⟩ := ih (l2.erase a) h2.cons_inv
    exact ⟨a :: l, (hl1.cons a).trans h1.symm, by simp [hl2, hfa]⟩

/-! ## Theorems: size and contents, for arbitrary vectors -/

theorem push_heap_loop_length {T : Type} (value : Message T) (top : Nat) :
    ∀ (fuel : Nat) (v : List (Message T)) (hole : Nat),
      (push_heap_loop value top fuel v hole).length = v.length := by
  intro fuel
  induction fuel with
  | zero => intro v hole; simp [push_heap_loop]
  | succ n ih =>
    intro v hole
    simp only [push_heap_loop]
    split
    · rw [ih]; simp
    · simp

theorem push_heap_loop_perm {T : Type} (value : Message T) (top : Nat) :
    ∀ (fuel : Nat) (v : List (Message T)) (hole : Nat), hole < v.length →
      (push_heap_loop value top fuel v hole).Perm (v.set hole value) := by
  intro fuel
  induction fuel with
  | zero => intro v hole _; simp [push_heap_loop]
  | succ n ih =>
    intro v hole hl
    simp only [push_heap_loop]
    split
    · rename_i hc
      simp only [Bool.and_eq_true, decide_eq_true_eq] at hc
      have hp : (hole - 1) / 2 < v.length := by omega
      exact (ih _ _ (by simpa using hp)).trans
        (set_swap_perm value value v hole _ (by omega) hl hp)
    · exact List.Perm.refl _

theorem pq_push_perm {T : Type} (c : List (Message T)) (x : Message T) :
    (pq_push c x).Perm (x :: c) ∧ (pq_push c x).length = c.length + 1 := by
  have hlast : (c ++ [x]).getLast? = some x := by simp
  have hlen : (c ++ [x]).length - 1 = c.length := by simp
  unfold pq_push push_heap
  rw [hlast]
  simp only [push_heap_at, hlen]
  have hset : (c ++ [x]).set c.length x = c ++ [x] :=
    set_eq_self_of_getElem _ _ _ (by simp)
  have h := push_heap_loop_perm x 0 c.length (c ++ [x]) c.length (by simp)
  rw [hset] at h
  exact ⟨h.trans (List.perm_append_singleton x c), by rw [push_heap_loop_length]; simp⟩

theorem adjust_heap_loop_length {T : Type} (len : Nat) (value : Message T) :
    ∀ (fuel : Nat) (v : List (Message T)) (hole sc : Nat),
      (adjust_heap_loop len value fuel v hole sc).1.length = v.length := by
  intro fuel
  induction fuel with
  | zero => intro v hole sc; simp [adjust_heap_loop]
  | succ n ih =>
    intro v hole sc
    simp only [adjust_heap_loop]
    split
    · rw [ih]; simp
    · rfl

theorem adjust_heap_length {T : Type} (v : List (Message T)) (hole len : Nat)
    (value : Message T) : (adjust_heap v hole len value).length = v.length := by
  have h := adjust_heap_loop_length len value len v hole hole
  unfold adjust_heap
  generalize adjust_heap_loop len value len v hole hole = R at h
  obtain ⟨r, h2, sc2⟩ := R
  simp only at h
  simp only [push_heap_at]
  split
  · rw [push_heap_loop_length]; simpa using h
  · rw [push_heap_loop_length]; exact h

theorem pop_heap_length {T : Type} (c : List (Message T)) :
    (pop_heap c).length = c.length := by
  unfold pop_heap
  split
  · split
    · rw [adjust_heap_length]; simp
    · rfl
  · rfl

theorem pq_pop_length {T : Type} (c : List (Message T)) :
    (pq_pop c).length = c.length - 1 := by
  simp [pq_pop, pop_heap_length]

theorem stop_loop_nil {T : Type} :
    ∀ (fuel : Nat) (c : List (Message T)), c.length ≤ fuel → stop_loop fuel c = [] := by
  intro fuel
  induction fuel with
  | zero =>
    intro c hc
    simp only [stop_loop]
    exact List.length_eq_zero.mp (by omega)
  | succ n ih =>
    intro c hc
    simp only [stop_loop]
    split
    · exact ih _ (by rw [pq_pop_length]; omega)
    · exact List.length_eq_zero.mp (by omega)

/-! ## Theorems: sequences of puts and gets -/

theorem puts_spec {T : Type} :
    ∀ (ps : List (T × Int)) (q : MessageQueue T), IsHeap q._queue →
      IsHeap (q.puts ps)._queue ∧
      (q.puts ps)._queue.Perm (ps.map (fun e => Message.ofInt e.1 e.2) ++ q._queue) ∧
      (q.puts ps).bIsStopped = q.bIsStopped ∧ (q.puts ps).pEvent = q.pEvent ∧
      (q.puts ps).hwm = q.hwm ∧ (q.puts ps).lwm = q.lwm := by
  intro ps
  induction ps with
  | nil => intro q hq; exact ⟨hq, List.Perm.refl _, rfl, rfl, rfl, rfl⟩
  | cons e rest ih =>
    intro q hq
    obtain ⟨s1, s2, _⟩ := pq_push_spec q._queue (Message.ofInt e.1 e.2) hq
    obtain ⟨k1, k2, k3, k4, k5, k6⟩ := ih (q.put e.1 e.2).2.q s1
    refine ⟨k1, ?_, k3, k4, k5, k6⟩
    have h1 : (q.put e.1 e.2).2.q._queue = pq_push q._queue (Message.ofInt e.1 e.2) := rfl
    rw [h1] at k2
    refine k2.trans ?_
    simp only [List.map_cons, List.cons_append]
    exact ((List.Perm.append_left _ s2).trans List.perm_middle)

theorem gets_spec {T : Type} :
    ∀ (n : Nat) (q : MessageQueue T) (m0 : T), q.bIsStopped = false → IsHeap q._queue →
      q._queue.length = n →
      ∃ es : List (Message T), es.Perm q._queue ∧
        (q.gets n m0).1 = es.map (fun e => (RetCode.OK, e.data)) ∧
        es.Pairwise (fun a b => b.priority ≤ a.priority) ∧
        (q.gets n m0).2._queue = [] := by
  intro n
  induction n with
  | zero =>
    intro q m0 _ _ hl
    exact ⟨[], by rw [List.length_eq_zero.mp hl], rfl, List.Pairwise.nil,
      List.length_eq_zero.mp hl⟩
  | succ n ih =>
    intro q m0 hrun hq hl
    obtain ⟨top, htop⟩ : ∃ top, pq_top q._queue = some top := by
      cases hc : q._queue with
      | nil => rw [hc] at hl; simp at hl
      | cons a t => exact ⟨a, rfl⟩
    obtain ⟨p1, p2, p3⟩ := pq_pop_spec q._queue top hq htop
    have hget : q.get m0 = GetResult.returned RetCode.OK top.data
        { q with _queue := pq_pop q._queue }
        (if q.pEvent.isSome && decide ((pq_pop q._queue).length ≤ toUnsigned q.lwm)
          then [Signal.on_lwm] else []) := by
      simp [MessageQueue.get, MessageQueue.isStopped, hrun, MessageQueue.get_loop, htop,
        Message.get_data]
    obtain ⟨es, e1, e2, e3, e4⟩ := ih { q with _queue := pq_pop q._queue } top.data hrun p1
      (by simp only; omega)
    refine ⟨top :: es, ((e1.cons top).trans p2.symm), ?_, ?_, ?_⟩
    · simp only [MessageQueue.gets, hget, List.map_cons, e2]
    · refine List.Pairwise.cons ?_ e3
      intro b hb
      have hb2 : b ∈ q._queue := p2.symm.subset (List.mem_cons_of_mem _ (e1.subset hb))
      exact pq_top_max q._queue top hq htop b hb2
    · simp only [MessageQueue.gets, hget]
      exact e4

theorem isHeap_nil {T : Type} : IsHeap ([] : List (Message T)) := by
  intro i _ hi
  simp at hi

theorem drain_spec {T : Type} (q : MessageQueue T) (ps : List (T × Int)) (m0 : T)
    (hempty : q._queue = []) (hrun : q.bIsStopped = false) :
    ∃ es : List (T × Int), es.Perm ps ∧
      ((q.puts ps).gets ps.length m0).1 = es.map (fun e => (RetCode.OK, e.1)) ∧
      es.Pairwise (fun a b => effPriority b ≤ effPriority a) := by
  have hq : IsHeap q._queue := by rw [hempty]; exact isHeap_nil
  obtain ⟨k1, k2, k3, _⟩ := puts_spec ps q hq
  rw [hempty, List.append_nil] at k2
  obtain ⟨ms, m1, m2, m3, _⟩ := gets_spec ps.length (q.puts ps) m0 (by rw [k3, hrun]) k1
    (by rw [k2.length_eq]; simp)
  obtain ⟨es, e1, e2⟩ := perm_map_pullback (fun e : T × Int => Message.ofInt e.1 e.2) ms ps
    (m1.trans k2)
  refine ⟨es, e1, ?_, ?_⟩
  · rw [m2, ← e2, List.map_map]
    rfl
  · rw [← e2, List.pairwise_map] at m3
    exact m3

theorem toUShort_of_range (p : Int) (h0 : 0 ≤ p) (h1 : p ≤ 65535) : (toUShort p : Int) = p := by
  unfold toUShort
  omega

theorem toUnsigned_of_range (x : Int) (h0 : 0 ≤ x) (h1 : x < 2147483648) :
    (toUnsigned x : Int) = x := by
  unfold toUnsigned
  omega

theorem stableInsert_perm {T : Type} (e : T × Int) :
    ∀ l : List (T × Int), (stableInsert e l).Perm (e :: l) := by
  intro l
  induction l with
  | nil => exact List.Perm.refl _
  | cons x xs ih =>
    simp only [stableInsert]
    split
    · exact (ih.cons x).trans (List.Perm.swap e x xs)
    · exact List.Perm.refl _

theorem stableInsert_sorted {T : Type} (e : T × Int) :
    ∀ l : List (T × Int), l.Pairwise (fun a b => effPriority b ≤ effPriority a) →
      (stableInsert e l).Pairwise (fun a b => effPriority b ≤ effPriority a) := by
  intro l
  induction l with
  | nil => intro _; simp [stableInsert]
  | cons x xs ih =>
    intro h
    obtain ⟨hx, hxs⟩ := List.pairwise_cons.mp h
    simp only [stableInsert]
    split
    · rename_i hge
      refine List.Pairwise.cons ?_ (ih hxs)
      intro b hb
      rcases List.mem_cons.mp ((stableInsert_perm e xs).subset hb) with hbe | hbx
      · rw [hbe]; exact hge
      · exact hx b hbx
    · rename_i hlt
      refine List.Pairwise.cons ?_ h
      intro b hb
      rcases List.mem_cons.mp hb with hbe | hbx
      · rw [hbe]; omega
      · have := hx b hbx
        omega

theorem stableSortDesc_spec {T : Type} (ps : List (T × Int)) :
    (stableSortDesc ps).Perm ps ∧
      (stableSortDesc ps).Pairwise (fun a b => effPriority b ≤ effPriority a) := by
  have gen : ∀ (l acc : List (T × Int)),
      acc.Pairwise (fun a b => effPriority b ≤ effPriority a) →
      (l.foldl (fun acc e => stableInsert e acc) acc).Perm (acc ++ l) ∧
      (l.foldl (fun acc e => stableInsert e acc) acc).Pairwise
        (fun a b => effPriority b ≤ effPriority a) := by
    intro l
    induction l with
    | nil => intro acc h; exact ⟨by simp, h⟩
    | cons e rest ih =>
      intro acc h
      obtain ⟨k1, k2⟩ := ih (stableInsert e acc) (stableInsert_sorted e acc h)
      refine ⟨?_, k2⟩
      simp only [List.foldl_cons]
      refine k1.trans ?_
      exact ((stableInsert_perm e acc).append_right rest).trans List.perm_middle.symm
  obtain ⟨k1, k2⟩ := gen ps [] List.Pairwise.nil
  exact ⟨by simpa [stableSortDesc] using k1, k2⟩

theorem sorted_perm_unique {T : Type} (l1 l2 : List (T × Int)) (hp : l1.Perm l2)
    (h1 : l1.Pairwise (fun a b => effPriority b ≤ effPriority a))
    (h2 : l2.Pairwise (fun a b => effPriority b ≤ effPriority a))
    (hnd : (l2.map effPriority).Nodup) : l1 = l2 := by
  have hnd1 : (l1.map effPriority).Nodup := (hp.map effPriority).nodup_iff.mpr hnd
  have s1 : l1.Pairwise (fun a b => effPriority b < effPriority a) := by
    rw [List.Nodup, List.pairwise_map] at hnd1
    exact (h1.and hnd1).imp (by intro a b hab; omega)
  have s2 : l2.Pairwise (fun a b => effPriority b < effPriority a) := by
    rw [List.Nodup, List.pairwise_map] at hnd
    exact (h2.and hnd).imp (by intro a b hab; omega)
  haveI : IsAntisymm (T × Int) (fun a b => effPriority b < effPriority a) :=
    ⟨fun a b x y => absurd x (by omega)⟩
  exact List.eq_of_perm_of_sorted hp s1 s2

theorem sorted_perm_keys {T : Type} (l1 l2 : List (T × Int)) (hp : l1.Perm l2)
    (h1 : l1.Pairwise (fun a b => effPriority b ≤ effPriority a))
    (h2 : l2.Pairwise (fun a b => effPriority b ≤ effPriority a)) :
    l1.map effPriority = l2.map effPriority := by
  haveI : IsAntisymm Nat (fun a b => b ≤ a) := ⟨fun a b x y => Nat.le_antisymm y x⟩
  have k1 : List.Sorted (fun a b : Nat => b ≤ a) (l1.map effPriority) :=
    List.pairwise_map.mpr h1
  have k2 : List.Sorted (fun a b : Nat => b ≤ a) (l2.map effPriority) :=
    List.pairwise_map.mpr h2
  exact List.eq_of_perm_of_sorted (hp.map effPriority) k1 k2

theorem call_preserves_stopped {T : Type} (q : MessageQueue T) (c : Call T)
    (h : q.bIsStopped = true) : (q.call c).bIsStopped = true := by
  cases c with
  | put message priority => exact h
  | get message => simp [MessageQueue.call, MessageQueue.get, MessageQueue.isStopped, h]
  | run => exact h
  | stop => rfl
  | set_event p => exact h

theorem calls_preserve_stopped {T : Type} :
    ∀ (cs : List (Call T)) (q : MessageQueue T), q.bIsStopped = true →
      (q.calls cs).bIsStopped = true := by
  intro cs
  induction cs with
  | nil => intro q h; exact h
  | cons c rest ih =>
    intro q h
    exact ih (q.call c) (call_preserves_stopped q c h)

theorem get_of_stopped {T : Type} (q : MessageQueue T) (message : T)
    (h : q.bIsStopped = true) :
    q.get message = GetResult.returned RetCode.STOPPED message q [] := by
  simp [MessageQueue.get, MessageQueue.isStopped, h]

theorem forEach_eq_map (s : Signal) :
    ∀ l : List Observer, EventManager.forEach s l = l.map (fun o => (o, s)) := by
  intro l
  induction l with
  | nil => rfl
  | cons a t ih => simp [EventManager.forEach, ih]

theorem registered_events (os : List Observer) : EventManager.registered os = { events := os } := by
  have gen : ∀ (l : List Observer) (em : EventManager),
      l.foldl (fun em o => (em.Add o).2) em = { events := em.events ++ l } := by
    intro l
    induction l with
    | nil => intro em; simp
    | cons a t ih =>
      intro em
      simp only [List.foldl_cons]
      rw [ih]
      simp [EventManager.Add]
  simpa [EventManager.registered] using gen os { events := [] }

theorem on_hwm_keeps_aborted (w : Writer) (h : w._stat = WriterStat.ABORTED) :
    (Writer.on_hwm w)._stat = WriterStat.ABORTED := by
  simp [Writer.on_hwm, h]

theorem foldl_on_hwm_keeps_aborted :
    ∀ (sigs : List Signal) (w : Writer), w._stat = WriterStat.ABORTED →
      (sigs.foldl (fun v _ => Writer.on_hwm v) w)._stat = WriterStat.ABORTED := by
  intro sigs
  induction sigs with
  | nil => intro w h; exact h
  | cons a t ih => intro w h; exact ih _ (on_hwm_keeps_aborted w h)

theorem run_safe_loop_stays_alive {T : Type} (make : Int → Option T) (observed : Bool)
    (hmake : ∀ p, ∃ m, make p = some m) :
    ∀ (fuel : Nat) (rands : List Nat) (w : Writer) (q : MessageQueue T),
      q.bIsStopped = false →
      (Writer.run_safe_loop make observed fuel rands w q).thread.alive = true ∧
      (Writer.run_safe_loop make observed fuel rands w q).q.bIsStopped = false ∧
      (w._stat = WriterStat.ABORTED →
        (Writer.run_safe_loop make observed fuel rands w q).w._stat = WriterStat.ABORTED) := by
  intro fuel
  induction fuel with
  | zero => intro rands w q hq; exact ⟨rfl, hq, fun h => h⟩
  | succ n ih =>
    intro rands w q hq
    simp only [Writer.run_safe_loop, MessageQueue.isStopped, hq]
    by_cases hp : w._stat = WriterStat.PAUSED
    · simpa [hp] using ih rands w q hq
    · obtain ⟨m, hm⟩ := hmake (((rands.headD 0 % 1000 : Nat) : Int))
      simp only [Bool.false_eq_true, if_false, hp, hm]
      obtain ⟨k1, k2, k3⟩ := ih rands.tail
        (if observed = true then
          List.foldl (fun v _ => Writer.on_hwm v) w
            (q.put m ((rands.headD 0 % 1000 : Nat) : Int)).2.signals
          else w)
        (q.put m ((rands.headD 0 % 1000 : Nat) : Int)).2.q hq
      refine ⟨k1, k2, fun h => k3 ?_⟩
      split
      · exact foldl_on_hwm_keeps_aborted _ w h
      · exact h

theorem run_waits_for_live_thread {T : Type} (env : WriterEnv T) (w : Writer)
    (q : MessageQueue T) (t : WriterThread) (hmake : ∀ p, ∃ m, env.make p = some m)
    (ht : w.pThread = some t) (halive : t.alive = true) (hq : q.bIsStopped = false)
    (hab : w._stat = WriterStat.ABORTED) :
    (Writer.run env w q).1._stat = WriterStat.ABORTED := by
  obtain ⟨k1, _, k3⟩ :=
    run_safe_loop_stays_alive env.make env.observed hmake env.fuel t.rands w q hq
  simp only [Writer.run, ht, halive, if_true, k1]
  exact k3 hab

theorem get_loop_returned {T : Type} (q : MessageQueue T) (ret : RetCode) (msg : T)
    (q2 : MessageQueue T) (sigs : List Signal)
    (h : q.get_loop = GetResult.returned ret msg q2 sigs) :
    ret = RetCode.OK ∧ pq_top q._queue = some ⟨msg, prioAt q._queue 0⟩ ∧
    q2 = { q with _queue := pq_pop q._queue } ∧
    sigs = (if q.pEvent.isSome && decide ((pq_pop q._queue).length ≤ toUnsigned q.lwm)
      then [Signal.on_lwm] else []) ∧
    q2._queue.length + 1 = q._queue.length := by
  unfold MessageQueue.get_loop at h
  split at h
  · simp at h
  · rename_i top htop
    simp only [GetResult.returned.injEq] at h
    obtain ⟨h1, h2, h3, h4⟩ := h
    have hne : q._queue.length ≠ 0 := by
      intro h0
      rw [List.length_eq_zero.mp h0] at htop
      simp [pq_top] at htop
    refine ⟨h1.symm, ?_, h3.symm, h4.symm, ?_⟩
    · rw [htop, ← h2]
      cases hq : q._queue with
      | nil => rw [hq] at htop; simp [pq_top] at htop
      | cons a t =>
        rw [hq] at htop
        simp only [pq_top, List.head?_cons, Option.some.injEq] at htop
        subst htop
        simp [prioAt, Message.get_data]
    · rw [← h3]
      simp only [pq_pop_length]
      omega

/-! ## Theorems: the claims -/

/-- C1: on an empty, not stopped queue, after any sequence of puts with
priorities in 0..65535, the same number of gets all return OK, the returned
payloads are those of a rearrangement of the puts, and the priorities along
that rearrangement are in non-increasing order. -/
theorem C1_puts_then_gets {T : Type} (q : MessageQueue T) (ps : List (T × Int)) (m0 : T)
    (hempty : q._queue = []) (hrun : q.bIsStopped = false)
    (hrange : ∀ e ∈ ps, 0 ≤ e.2 ∧ e.2 ≤ 65535) :
    ∃ es : List (T × Int), es.Perm ps ∧
      ((q.puts ps).gets ps.length m0).1 = es.map (fun e => (RetCode.OK, e.1)) ∧
      (es.map (fun e => e.2)).Pairwise (fun a b => b ≤ a) := by
  obtain ⟨es, e1, e2, e3⟩ := drain_spec q ps m0 hempty hrun
  refine ⟨es, e1, e2, ?_⟩
  rw [List.pairwise_map]
  refine e3.imp_of_mem ?_
  intro a b ha hb hab
  have ra := hrange a (e1.subset ha)
  have rb := hrange b (e1.subset hb)
  have ea := toUShort_of_range a.2 ra.1 ra.2
  have eb := toUShort_of_range b.2 rb.1 rb.2
  unfold effPriority at hab
  omega

theorem C1_puts_then_gets_witness :
    (MessageQueue.new 100 10 90 : MessageQueue String)._queue = [] ∧
    (MessageQueue.new 100 10 90 : MessageQueue String).bIsStopped = false ∧
    (∀ e ∈ [("a", (1 : Int)), ("b", 3), ("c", 2)], 0 ≤ e.2 ∧ e.2 ≤ 65535) ∧
    ∃ es : List (String × Int), es.Perm [("a", 1), ("b", 3), ("c", 2)] ∧
      (((MessageQueue.new 100 10 90 : MessageQueue String).puts
        [("a", 1), ("b", 3), ("c", 2)]).gets [("a", (1 : Int)), ("b", 3), ("c", 2)].length "").1
        = es.map (fun e => (RetCode.OK, e.1)) ∧
      (es.map (fun e => e.2)).Pairwise (fun a b => b ≤ a) :=
  ⟨rfl, rfl, by decide,
    C1_puts_then_gets (MessageQueue.new 100 10 90) [("a", 1), ("b", 3), ("c", 2)] "" rfl rfl
      (by decide)⟩

/-- C2 (as stated, refuted): four items put with the same priority on an empty
running queue come out as a, c, b, d, while the stable sort of the enqueue
order is a, b, c, d.  The four pushes leave the vector [a, b, c, d] (no parent
is smaller than the pushed value, so nothing moves).  The first get returns a;
its pop saves d, percolates the hole at the root over the first three slots
and picks the right child c (the left child is taken only when the right one
compares smaller), which leaves [c, b, d]; the second get returns c. -/
theorem C2_equal_priority_not_fifo :
    (((MessageQueue.new 100 10 90 : MessageQueue String).puts
        [("a", 1), ("b", 1), ("c", 1), ("d", 1)]).gets 4 "").1
      = [(RetCode.OK, "a"), (RetCode.OK, "c"), (RetCode.OK, "b"), (RetCode.OK, "d")] ∧
    (stableSortDesc [("a", (1 : Int)), ("b", 1), ("c", 1), ("d", 1)]).map
        (fun e => (RetCode.OK, e.1))
      = [(RetCode.OK, "a"), (RetCode.OK, "b"), (RetCode.OK, "c"), (RetCode.OK, "d")] ∧
    (((MessageQueue.new 100 10 90 : MessageQueue String).puts
        [("a", 1), ("b", 1), ("c", 1), ("d", 1)]).gets 4 "").1
      ≠ (stableSortDesc [("a", (1 : Int)), ("b", 1), ("c", 1), ("d", 1)]).map
        (fun e => (RetCode.OK, e.1)) := by
  decide

/-- C2 (amended): after any sequence of puts on an empty, not stopped queue, the
same number of gets return the payloads of a rearrangement of the puts whose
effective priorities (priority mod 65536) are exactly those of the stable sort
by descending priority, position by position; when no two puts share an
effective priority the dequeue order is the stable sort itself.  Nothing is
promised about the relative order of items of equal priority. -/
theorem C2_dequeue_order_by_priority {T : Type} (q : MessageQueue T) (ps : List (T × Int))
    (m0 : T) (hempty : q._queue = []) (hrun : q.bIsStopped = false) :
    (∃ es : List (T × Int), es.Perm ps ∧
      ((q.puts ps).gets ps.length m0).1 = es.map (fun e => (RetCode.OK, e.1)) ∧
      es.map effPriority = (stableSortDesc ps).map effPriority) ∧
    ((ps.map effPriority).Nodup →
      ((q.puts ps).gets ps.length m0).1 =
        (stableSortDesc ps).map (fun e => (RetCode.OK, e.1))) := by
  obtain ⟨es, e1, e2, e3⟩ := drain_spec q ps m0 hempty hrun
  obtain ⟨s1, s2⟩ := stableSortDesc_spec ps
  refine ⟨⟨es, e1, e2, sorted_perm_keys es _ (e1.trans s1.symm) e3 s2⟩, ?_⟩
  intro hnd
  have hnd2 : ((stableSortDesc ps).map effPriority).Nodup :=
    (s1.map effPriority).nodup_iff.mpr hnd
  rw [e2, sorted_perm_unique es _ (e1.trans s1.symm) e3 s2 hnd2]

theorem C2_dequeue_order_by_priority_witness :
    (MessageQueue.new 100 10 90 : MessageQueue String)._queue = [] ∧
    (MessageQueue.new 100 10 90 : MessageQueue String).bIsStopped = false ∧
    (∃ es : List (String × Int), es.Perm [("a", 1), ("b", 3), ("c", 65540), ("d", 2)] ∧
      (((MessageQueue.new 100 10 90 : MessageQueue String).puts
        [("a", 1), ("b", 3), ("c", 65540), ("d", 2)]).gets
          [("a", (1 : Int)), ("b", 3), ("c", 65540), ("d", 2)].length "").1
        = es.map (fun e => (RetCode.OK, e.1)) ∧
      es.map effPriority =
        (stableSortDesc [("a", (1 : Int)), ("b", 3), ("c", 65540), ("d", 2)]).map
          effPriority) ∧
    (([("a", (1 : Int)), ("b", 3), ("c", 65540), ("d", 2)] : List (String × Int)).map
        effPriority).Nodup ∧
    (((MessageQueue.new 100 10 90 : MessageQueue String).puts
        [("a", 1), ("b", 3), ("c", 65540), ("d", 2)]).gets
          [("a", (1 : Int)), ("b", 3), ("c", 65540), ("d", 2)].length "").1 =
        (stableSortDesc [("a", (1 : Int)), ("b", 3), ("c", 65540), ("d", 2)]).map
          (fun e => (RetCode.OK, e.1)) :=
  ⟨rfl, rfl,
    (C2_dequeue_order_by_priority (MessageQueue.new 100 10 90)
      [("a", 1), ("b", 3), ("c", 65540), ("d", 2)] "" rfl rfl).1,
    by decide,
    (C2_dequeue_order_by_priority (MessageQueue.new 100 10 90)
      [("a", 1), ("b", 3), ("c", 65540), ("d", 2)] "" rfl rfl).2 (by decide)⟩

/-- C3: after stop(), whatever further put, get, run, stop and set_event calls are
made, the queue is still stopped and a get returns STOPPED at once, with the
caller's message variable and the queue unchanged and no signal delivered;
this also holds right after a later put, when the queue is not empty. -/
theorem C3_stopped_is_terminal {T : Type} (q : MessageQueue T) (cs : List (Call T))
    (message : T) :
    (q.stop.q.calls cs).bIsStopped = true ∧
    (q.stop.q.calls cs).get message =
      GetResult.returned RetCode.STOPPED message (q.stop.q.calls cs) [] ∧
    ∀ (m : T) (p : Int),
      ((q.stop.q.calls cs).put m p).2.q._queue ≠ [] ∧
      ((q.stop.q.calls cs).put m p).2.q.get message =
        GetResult.returned RetCode.STOPPED message ((q.stop.q.calls cs).put m p).2.q [] := by
  have hs : (q.stop.q.calls cs).bIsStopped = true := calls_preserve_stopped cs q.stop.q rfl
  refine ⟨hs, get_of_stopped _ _ hs, fun m p => ⟨?_, get_of_stopped _ _ hs⟩⟩
  intro hnil
  have hl := (pq_push_perm (q.stop.q.calls cs)._queue (Message.ofInt m p)).2
  have he : ((q.stop.q.calls cs).put m p).2.q._queue =
      pq_push (q.stop.q.calls cs)._queue (Message.ofInt m p) := rfl
  rw [← he, hnil] at hl
  simp at hl

/-- C4: with 0 <= lwm <= hwm (as C++ ints), a put delivers exactly on_hwm when an
observer is registered and the size after the insertion is at least hwm, and
nothing otherwise; a get that returns OK, whether it returns without waiting
or after it was suspended in the wait loop and woken, removes one envelope and
delivers exactly on_lwm when an observer is registered and the size after the
removal is at most lwm, and nothing otherwise.  With no observer neither
delivers anything.  For MessageQueue(100, 10, 90) with an observer, the k-th
put on the empty queue delivers on_hwm exactly when k >= 90. -/
theorem C4_watermark_signals {T : Type} (q : MessageQueue T) (message m0 : T) (priority : Int)
    (hl : 0 ≤ q.lwm) (hlh : q.lwm ≤ q.hwm) (hint : q.hwm < 2147483648) :
    ((q.put message priority).2.signals =
      if q.pEvent.isSome = true ∧ q.hwm ≤ ((q.put message priority).2.q._queue.length : Int)
      then [Signal.on_hwm] else []) ∧
    (∀ (msg : T) (q2 : MessageQueue T) (sigs : List Signal),
      q.get m0 = GetResult.returned RetCode.OK msg q2 sigs →
      q2._queue.length + 1 = q._queue.length ∧
      sigs = if q.pEvent.isSome = true ∧ (q2._queue.length : Int) ≤ q.lwm
        then [Signal.on_lwm] else []) ∧
    (∀ (msg : T) (q2 : MessageQueue T) (sigs : List Signal),
      q.get_resume m0 = GetResult.returned RetCode.OK msg q2 sigs →
      q2._queue.length + 1 = q._queue.length ∧
      sigs = if q.pEvent.isSome = true ∧ (q2._queue.length : Int) ≤ q.lwm
        then [Signal.on_lwm] else []) ∧
    (q.pEvent = none →
      (q.put message priority).2.signals = [] ∧
      (∀ (ret : RetCode) (msg : T) (q2 : MessageQueue T) (sigs : List Signal),
        (q.get m0 = GetResult.returned ret msg q2 sigs ∨
          q.get_resume m0 = GetResult.returned ret msg q2 sigs) → sigs = [])) ∧
    (∀ (o : Observer) (ps : List (T × Int)) (m : T) (p : Int),
      ((((MessageQueue.new 100 10 90 : MessageQueue T).set_event (some o)).puts ps).put
          m p).2.signals =
        if 90 ≤ ps.length + 1 then [Signal.on_hwm] else []) := by
  have uh := toUnsigned_of_range q.hwm (by omega) hint
  have ul := toUnsigned_of_range q.lwm hl (by omega)
  have loopcase : ∀ (msg : T) (q2 : MessageQueue T) (sigs : List Signal),
      q.get_loop = GetResult.returned RetCode.OK msg q2 sigs →
      q2._queue.length + 1 = q._queue.length ∧
      sigs = if q.pEvent.isSome = true ∧ (q2._queue.length : Int) ≤ q.lwm
        then [Signal.on_lwm] else [] := by
    intro msg q2 sigs h
    obtain ⟨_, _, hq2, hs, hlen⟩ := get_loop_returned q _ msg q2 sigs h
    refine ⟨hlen, ?_⟩
    rw [hs, hq2]
    simp only [Bool.and_eq_true, decide_eq_true_eq]
    congr 1
    apply propext
    constructor
    · rintro ⟨h1, h2⟩; exact ⟨h1, by omega⟩
    · rintro ⟨h1, h2⟩; exact ⟨h1, by omega⟩
  refine ⟨?_, ?_, ?_, ?_, ?_⟩
  · simp only [MessageQueue.put, Bool.and_eq_true, decide_eq_true_eq]
    congr 1
    apply propext
    constructor
    · rintro ⟨h1, h2⟩; exact ⟨h1, by omega⟩
    · rintro ⟨h1, h2⟩; exact ⟨h1, by omega⟩
  · intro msg q2 sigs hget
    unfold MessageQueue.get at hget
    split at hget
    · simp at hget
    · exact loopcase msg q2 sigs hget
  · intro msg q2 sigs hget
    unfold MessageQueue.get_resume at hget
    split at hget
    · simp at hget
    · exact loopcase msg q2 sigs hget
  · intro hnone
    refine ⟨by simp [MessageQueue.put, hnone], ?_⟩
    intro ret msg q2 sigs hget
    have stopcase : ∀ (m1 : T) (q1 : MessageQueue T),
        GetResult.returned RetCode.STOPPED m1 q1 [] = GetResult.returned ret msg q2 sigs →
        sigs = [] := by
      intro m1 q1 h
      simp only [GetResult.returned.injEq] at h
      exact h.2.2.2.symm
    have loopnone : q.get_loop = GetResult.returned ret msg q2 sigs → sigs = [] := by
      intro h
      obtain ⟨_, _, _, hs, _⟩ := get_loop_returned q ret msg q2 sigs h
      rw [hs]
      simp [hnone]
    rcases hget with hget | hget
    · unfold MessageQueue.get at hget
      split at hget
      · exact stopcase _ _ hget
      · exact loopnone hget
    · unfold MessageQueue.get_resume at hget
      split at hget
      · exact stopcase _ _ hget
      · exact loopnone hget
  · intro o ps m p
    obtain ⟨_, k2, _, k4, k5, _⟩ :=
      puts_spec ps ((MessageQueue.new 100 10 90 : MessageQueue T).set_event (some o))
        isHeap_nil
    have hlen := k2.length_eq
    have hpl := (pq_push_perm
      ((((MessageQueue.new 100 10 90 : MessageQueue T).set_event (some o)).puts ps)._queue)
      (Message.ofInt m p)).2
    have h90 : toUnsigned 90 = 90 := by decide
    simp only [MessageQueue.put, k4, k5, hpl, hlen]
    simp [MessageQueue.set_event, MessageQueue.new, h90]

theorem C4_watermark_signals_witness :
    0 ≤ watermarkExample.lwm ∧ watermarkExample.lwm ≤ watermarkExample.hwm ∧
    watermarkExample.hwm < 2147483648 ∧
    ((watermarkExample.put "c" 9).2.signals =
      if watermarkExample.pEvent.isSome = true ∧
        watermarkExample.hwm ≤ ((watermarkExample.put "c" 9).2.q._queue.length : Int)
      then [Signal.on_hwm] else []) ∧
    (watermarkExample.put "c" 9).2.signals = [Signal.on_hwm] ∧
    watermarkExample.get "" =
      GetResult.returned RetCode.OK "b" { watermarkExample with _queue := [⟨"a", 5⟩] }
        [Signal.on_lwm] ∧
    (({ watermarkExample with _queue := [⟨"a", 5⟩] } : MessageQueue String)._queue.length + 1
        = watermarkExample._queue.length ∧
      [Signal.on_lwm] =
        if watermarkExample.pEvent.isSome = true ∧
          (((({ watermarkExample with _queue := [⟨"a", 5⟩] } :
            MessageQueue String)._queue.length : Nat) : Int) ≤ watermarkExample.lwm)
        then [Signal.on_lwm] else []) ∧
    watermarkExample.get_resume "" =
      GetResult.returned RetCode.OK "b" { watermarkExample with _queue := [⟨"a", 5⟩] }
        [Signal.on_lwm] ∧
    (({ watermarkExample with _queue := [⟨"a", 5⟩] } : MessageQueue String)._queue.length + 1
        = watermarkExample._queue.length ∧
      [Signal.on_lwm] =
        if watermarkExample.pEvent.isSome = true ∧
          (((({ watermarkExample with _queue := [⟨"a", 5⟩] } :
            MessageQueue String)._queue.length : Nat) : Int) ≤ watermarkExample.lwm)
        then [Signal.on_lwm] else []) ∧
    (MessageQueue.new 100 1 2 : MessageQueue String).pEvent = none ∧
    ((MessageQueue.new 100 1 2 : MessageQueue String).put "c" 9).2.signals = [] :=
  ⟨by decide, by decide, by decide,
    (C4_watermark_signals watermarkExample "c" "" 9 (by decide) (by decide) (by decide)).1,
    by decide, by decide,
    (C4_watermark_signals watermarkExample "c" "" 9 (by decide) (by decide) (by decide)).2.1
      "b" { watermarkExample with _queue := [⟨"a", 5⟩] } [Signal.on_lwm] (by decide),
    by decide,
    (C4_watermark_signals watermarkExample "c" "" 9 (by decide) (by decide) (by decide)).2.2.1
      "b" { watermarkExample with _queue := [⟨"a", 5⟩] } [Signal.on_lwm] (by decide),
    rfl,
    ((C4_watermark_signals (MessageQueue.new 100 1 2 : MessageQueue String) "c" "" 9
      (by decide) (by decide) (by decide)).2.2.2.1 rfl).1⟩

/-- C5: in every queue state put returns OK, the queue afterwards holds the
previous envelopes plus the new one (so the size grows by one), and the stopped
flag, the watermarks, the capacity and the observer are unchanged. -/
theorem C5_put_always_accepts {T : Type} (q : MessageQueue T) (message : T) (priority : Int) :
    (q.put message priority).1 = RetCode.OK ∧
    (q.put message priority).2.q._queue.Perm (Message.ofInt message priority :: q._queue) ∧
    (q.put message priority).2.q._queue.length = q._queue.length + 1 ∧
    (q.put message priority).2.q.bIsStopped = q.bIsStopped ∧
    (q.put message priority).2.q.hwm = q.hwm ∧
    (q.put message priority).2.q.lwm = q.lwm ∧
    (q.put message priority).2.q.queue_size = q.queue_size ∧
    (q.put message priority).2.q.pEvent = q.pEvent := by
  obtain ⟨h1, h2⟩ := pq_push_perm q._queue (Message.ofInt message priority)
  exact ⟨rfl, h1, h2, rfl, rfl, rfl, rfl, rfl⟩

/-- C6: in every queue state stop() yields a stopped queue without envelopes, with
watermarks, capacity and observer unchanged, and a second stop() leaves that
state as it is. -/
theorem C6_stop_clears_and_is_idempotent {T : Type} (q : MessageQueue T) :
    q.stop.q.bIsStopped = true ∧ q.stop.q._queue = [] ∧
    q.stop.q.hwm = q.hwm ∧ q.stop.q.lwm = q.lwm ∧ q.stop.q.queue_size = q.queue_size ∧
    q.stop.q.pEvent = q.pEvent ∧
    q.stop.q.stop.q = q.stop.q := by
  have h : stop_loop q._queue.length q._queue = [] := stop_loop_nil _ _ (le_refl _)
  refine ⟨rfl, h, rfl, rfl, rfl, rfl, ?_⟩
  simp [MessageQueue.stop, h, stop_loop]

/-- C7: after Add(o1), ..., Add(on) on an empty EventManager, each of on_start,
on_stop, on_hwm and on_lwm calls the same-named member function, and nothing
else, on o1, ..., on in that order, once per registered entry, and leaves the
registered list unchanged. -/
theorem C7_event_manager_order (os : List Observer) :
    (EventManager.registered os).events = os ∧
    (EventManager.registered os).on_start =
      (os.map (fun o => (o, Signal.on_start)), EventManager.registered os) ∧
    (EventManager.registered os).on_stop =
      (os.map (fun o => (o, Signal.on_stop)), EventManager.registered os) ∧
    (EventManager.registered os).on_hwm =
      (os.map (fun o => (o, Signal.on_hwm)), EventManager.registered os) ∧
    (EventManager.registered os).on_lwm =
      (os.map (fun o => (o, Signal.on_lwm)), EventManager.registered os) := by
  rw [registered_events]
  simp [EventManager.on_start, EventManager.on_stop, EventManager.on_hwm,
    EventManager.on_lwm, forEach_eq_map]

/-- C8 (the code at the failing schedule): consumer 0 calls get on the empty
running queue and is suspended; stop() completes and wakes it; a put completes
after the stop; when consumer 0 re-acquires the mutex its get returns OK with
the item that was put after the stop. -/
theorem C8_late_put_reaches_suspended_get :
    ((Sched.init (MessageQueue.new 100 10 90 : MessageQueue String)).steps
        [Event.get 0 "", Event.stop]).woken = [(0, "")] ∧
    ((Sched.init (MessageQueue.new 100 10 90 : MessageQueue String)).steps
        [Event.get 0 "", Event.stop]).q.bIsStopped = true ∧
    ((Sched.init (MessageQueue.new 100 10 90 : MessageQueue String)).steps
        [Event.get 0 "", Event.stop, Event.put "late" 5, Event.resume 0]).returned
      = [(0, RetCode.OK, "late")] := by
  decide

/-- C10: the envelope built by put(message, p) has priority p mod 65536; the
items put on an empty running queue come out in non-increasing order of their
priorities mod 65536, not of the int arguments, and of two items the one with
the larger priority mod 65536 comes first: after put(a, 65536) and put(b, 1)
the first get returns b, and an item put with priority -1 is dequeued before
an item put with priority 1000, whichever was put first. -/
theorem C10_priority_wraps {T : Type} (q : MessageQueue T) (a b m0 : T) (p r : Int)
    (hempty : q._queue = []) (hrun : q.bIsStopped = false) :
    (Message.ofInt a p).priority = (p % 65536).toNat ∧
    (∀ ps : List (T × Int), ∃ es : List (T × Int), es.Perm ps ∧
      ((q.puts ps).gets ps.length m0).1 = es.map (fun e => (RetCode.OK, e.1)) ∧
      es.Pairwise (fun x y => (y.2 % 65536).toNat ≤ (x.2 % 65536).toNat)) ∧
    (((q.puts [(a, p), (b, r)]).gets 2 m0).1 =
      if (p % 65536).toNat < (r % 65536).toNat
      then [(RetCode.OK, b), (RetCode.OK, a)] else [(RetCode.OK, a), (RetCode.OK, b)]) ∧
    ((q.puts [(a, 65536), (b, 1)]).gets 1 m0).1 = [(RetCode.OK, b)] ∧
    ((q.puts [(a, -1), (b, 1000)]).gets 2 m0).1 = [(RetCode.OK, a), (RetCode.OK, b)] ∧
    ((q.puts [(b, 1000), (a, -1)]).gets 2 m0).1 = [(RetCode.OK, a), (RetCode.OK, b)] := by
  have two : ∀ (x y : T) (s t : Int),
      (q.puts [(x, s), (y, t)])._queue =
        if toUShort s < toUShort t then [Message.ofInt y t, Message.ofInt x s]
        else [Message.ofInt x s, Message.ofInt y t] := by
    intro x y s t
    by_cases h : toUShort s < toUShort t
    · simp [MessageQueue.puts, MessageQueue.put, hempty, pq_push, push_heap, push_heap_at,
        push_heap_loop, Message.lt, Message.ofInt, h]
    · simp [MessageQueue.puts, MessageQueue.put, hempty, pq_push, push_heap, push_heap_at,
        push_heap_loop, Message.lt, Message.ofInt, h]
  have hst : ∀ (ps : List (T × Int)), (q.puts ps).bIsStopped = false := by
    intro ps
    have := (puts_spec ps q (by rw [hempty]; exact isHeap_nil)).2.2.1
    rw [this, hrun]
  have drain2 : ∀ (q2 : MessageQueue T) (u v : Message T), q2.bIsStopped = false →
      q2._queue = [u, v] → (q2.gets 2 m0).1 = [(RetCode.OK, u.data), (RetCode.OK, v.data)] := by
    intro q2 u v h1 h2
    simp [MessageQueue.gets, MessageQueue.get, MessageQueue.isStopped, h1, MessageQueue.get_loop,
      h2, pq_top, pq_pop, pop_heap, adjust_heap, adjust_heap_loop, push_heap_at, push_heap_loop,
      Message.get_data]
  have drain1 : ∀ (q2 : MessageQueue T) (u v : Message T), q2.bIsStopped = false →
      q2._queue = [u, v] → (q2.gets 1 m0).1 = [(RetCode.OK, u.data)] := by
    intro q2 u v h1 h2
    simp [MessageQueue.gets, MessageQueue.get, MessageQueue.isStopped, h1, MessageQueue.get_loop,
      h2, pq_top, Message.get_data]
  refine ⟨rfl, fun ps => drain_spec q ps m0 hempty hrun, ?_, ?_, ?_, ?_⟩
  · by_cases h : (p % 65536).toNat < (r % 65536).toNat
    · rw [if_pos h]
      have e := two a b p r
      rw [if_pos (show toUShort p < toUShort r from h)] at e
      exact drain2 _ _ _ (hst _) e
    · rw [if_neg h]
      have e := two a b p r
      rw [if_neg (show ¬ toUShort p < toUShort r from h)] at e
      exact drain2 _ _ _ (hst _) e
  · have e := two a b 65536 1
    rw [if_pos (by decide)] at e
    exact drain1 _ _ _ (hst _) e
  · have e := two a b (-1) 1000
    rw [if_neg (by decide)] at e
    exact drain2 _ _ _ (hst _) e
  · have e := two b a 1000 (-1)
    rw [if_pos (by decide)] at e
    exact drain2 _ _ _ (hst _) e

theorem C10_priority_wraps_witness :
    (MessageQueue.new 100 10 90 : MessageQueue String)._queue = [] ∧
    (MessageQueue.new 100 10 90 : MessageQueue String).bIsStopped = false ∧
    ((((MessageQueue.new 100 10 90 : MessageQueue String).puts
        [("a", 65536), ("b", 1)]).gets 1 "").1 = [(RetCode.OK, "b")]) :=
  ⟨rfl, rfl,
    (C10_priority_wraps (MessageQueue.new 100 10 90 : MessageQueue String) "a" "b" "" 7 9
      rfl rfl).2.2.2.1⟩

end MQ
